import Mathlib

/-!
Verification of the lead-assignment tracker's core (`src/app.py`): the
status/timestamp workflow validator and batch commit of `campaign_detail_ic`,
the sharded lead store (`load_all_leads`, `save_all_data`,
`cleanup_stale_lead_files`), and the campaign id allocator
(`generate_campaign_id`).

Modelling conventions: pandas DataFrames become lists of rows. A nullable
cell of the persisted leads table (the domain of the save handler's change
test) is a three-valued `Cell`: Python `None`, pandas `NaN` or a string —
the distinction matters because `str(nan or '')` is `'nan'` (NaN is truthy)
and `NaN != NaN` is true, which the change test inherits. Editor-side
nullable values are `Option String` (the display pipeline fills and casts
to `str`, so `NaN` cannot occur there), and the shard store's raw cells
are `Option String` as well, since every use there only distinguishes
missing from present. The leads directory is a list of (file name,
content) pairs, where a content is either a parsed table or `broken` (a
file whose read raises). Python
string helpers that the source uses (`str.strip`, `str.lower`,
`str.startswith`, `str.endswith`, `str.replace`, `str.split`,
`os.path.splitext`) are given explicit character-list implementations below.
-/

namespace LeadConnect

/-- Decimal digits of a natural number folded back to the number. -/
def digitsToNat (cs : List Char) : Nat :=
  cs.foldl (fun n c => n * 10 + (c.toNat - '0'.toNat)) 0

/-- Zero-pad the decimal rendering of `n` to at least `w` characters, as
Python's `f"{n:0wd}"` does. -/
def padNum (w : Nat) (n : Nat) : String :=
  let s := toString n
  if s.length < w then String.mk (List.replicate (w - s.length) '0') ++ s else s

/-- The whitespace characters Python's `str.strip()` removes (the ones that
can occur in this app's data). -/
def isSpaceChar (c : Char) : Bool :=
  c = ' ' || c = '\t' || c = '\n' || c = '\r'

/-- Python `s.strip(bad)`: remove the characters of `bad` from both ends. -/
def stripChars (bad : List Char) (s : String) : String :=
  String.mk (((s.toList.dropWhile (bad.contains ·)).reverse.dropWhile
    (bad.contains ·)).reverse)

/-- Python `s.strip()` (no argument): strip whitespace from both ends. -/
def trimPy (s : String) : String :=
  stripChars [' ', '\t', '\n', '\r'] s

/-- Python `s.lower()` on the ASCII range (file names in this app). -/
def lowerStr (s : String) : String :=
  String.mk (s.toList.map Char.toLower)

/-- Python `s.endswith(suffix)`. -/
def endsWithL (s suffix : String) : Bool :=
  suffix.toList.isSuffixOf s.toList

/-- Python `s.startswith(pre)`. -/
def startsWithL (s pre : String) : Bool :=
  pre.toList.isPrefixOf s.toList

/-- Python `s.replace(pat, rep)` on character lists: leftmost,
non-overlapping, every occurrence (used with the nonempty pattern
`"leads_"`). The `fuel` argument only makes the recursion structural so
the kernel can evaluate it; with `fuel` the length of the list it never
runs out, since every step consumes at least one character. -/
def replChars (pat rep : List Char) : Nat → List Char → List Char
  | 0, _ => []
  | _ + 1, [] => []
  | n + 1, c :: rest =>
    if pat.isPrefixOf (c :: rest) then
      rep ++ replChars pat rep n (rest.drop (pat.length - 1))
    else
      c :: replChars pat rep n rest

/-- Python `s.replace(pat, rep)` on strings. -/
def replaceL (s pat rep : String) : String :=
  String.mk (replChars pat.toList rep.toList s.toList.length s.toList)

/-! ## Status workflow validator (`campaign_detail_ic`, save button)

The edit surface provides, per lead, a proposed status (a selectbox over the
six Thai status strings), a contact date, a contact time and notes. The save
handler first validates the whole batch and, only if no row fails, applies
the edits to the in-memory leads table and persists it. -/

/-- A calendar date as the `st.column_config.DateColumn` editor yields it
(after the source's `_to_date`). -/
structure PDate where
  year : Nat
  month : Nat
  day : Nat
deriving DecidableEq

/-- A time of day as the `TimeColumn` editor yields it (after `_to_time`,
microseconds already dropped). -/
structure PTime where
  hour : Nat
  minute : Nat
  second : Nat
deriving DecidableEq

/-- `d.strftime("%Y-%m-%d")`. -/
def formatDate (d : PDate) : String :=
  padNum 4 d.year ++ "-" ++ padNum 2 d.month ++ "-" ++ padNum 2 d.day

/-- `t.strftime("%H:%M:%S")`. -/
def formatTime (t : PTime) : String :=
  padNum 2 t.hour ++ ":" ++ padNum 2 t.minute ++ ":" ++ padNum 2 t.second

/-- One edited row of the data editor, keyed by `lead_id`; `contact_date`
and `contact_time` are the values after `_to_date`/`_to_time`. -/
structure EditRow where
  lead_id : String
  customer_code : String
  customer_name : String
  status : Option String
  contact_date : Option PDate
  contact_time : Option PTime
  notes : Option String
deriving DecidableEq

/-- A nullable cell of the persisted leads table as the save handler reads
it back through pandas: a Python `None`, a pandas `NaN` (how `read_excel`
renders an empty cell — truthy, and unequal to everything including
itself under `!=`), or an actual string. -/
inductive Cell where
  | none : Cell
  | nan : Cell
  | str : String → Cell
deriving DecidableEq

/-- Python `str(x or '')` on a stored cell: `None` and `''` are falsy and
give `''`, but `NaN` is truthy and renders as the string `'nan'`. -/
def cellOrEmpty : Cell → String
  | Cell.none => ""
  | Cell.nan => "nan"
  | Cell.str s => s

/-- Python `!=` on the stored domain: `None != None` is false, strings
compare by value, and `NaN` is unequal to everything — including itself. -/
def cellNe : Cell → Cell → Bool
  | Cell.none, Cell.none => false
  | Cell.str s, Cell.str t => s != t
  | _, _ => true

/-- A persisted lead, restricted to the columns the save handler reads or
writes (`status`, `notes`, `last_contact_date`, `updated_at`). -/
structure StoredLead where
  lead_id : String
  status : Cell
  notes : Cell
  last_contact_date : Cell
  updated_at : Cell
deriving DecidableEq

/-- Python `str(x or '')` for a value of the edit surface, where only a
real string or `None` can occur (the display pipeline fills the editor
columns with `''` and casts to `str`, so pandas `NaN` never reaches this
side). -/
def orEmpty : Option String → String
  | none => ""
  | some s => s

/-- Python `x or None` for an edited value (empty collapses to null), as
stored back by `all_leads.loc[mask, 'notes'] = (new_notes or None)`. -/
def noneIfEmpty : Option String → Cell
  | none => Cell.none
  | some "" => Cell.none
  | some s => Cell.str s

/-- `str(row.get('status') or '').strip()`. -/
def normStatus (e : EditRow) : String :=
  trimPy (orEmpty e.status)

/-- The `requires_contact` status set of the save handler: contacted, deal
closed, pending decision, not interested, unreachable. -/
def requires_contact : List String :=
  ["ติดต่อแล้ว", "ปิดการขายสำเร็จ", "รอตัดสินใจ", "ไม่สนใจ", "ติดต่อไม่ได้"]

/-- The `no_contact` status set of the save handler: not yet contacted. -/
def no_contact : List String :=
  ["ยังไม่ติดต่อ"]

/-- A row lands in `invalid_required`: its status requires a contact
timestamp but the date or the time is missing. -/
def failsRequired (e : EditRow) : Bool :=
  requires_contact.contains (normStatus e) &&
    (e.contact_date.isNone || e.contact_time.isNone)

/-- A row lands in `invalid_forbidden`: its status forbids a contact
timestamp but the date or the time is present. -/
def failsForbidden (e : EditRow) : Bool :=
  no_contact.contains (normStatus e) &&
    (!e.contact_date.isNone || !e.contact_time.isNone)

/-- `_row_label`: `f"{code} - {name}".strip(" -")`. -/
def rowLabel (e : EditRow) : String :=
  stripChars [' ', '-'] (e.customer_code ++ " - " ++ e.customer_name)

/-- The labels of the rows violating the required rule, in batch order. -/
def invalidRequired (B : List EditRow) : List String :=
  (B.filter failsRequired).map rowLabel

/-- The labels of the rows violating the forbidden rule, in batch order. -/
def invalidForbidden (B : List EditRow) : List String :=
  (B.filter failsForbidden).map rowLabel

/-- The validation pass of the save handler: one loop over the whole batch
accumulating `invalid_required` and `invalid_forbidden`. -/
def validateBatch (B : List EditRow) : List String × List String :=
  B.foldl
    (fun acc e =>
      let acc1 := if failsRequired e then (acc.1 ++ [rowLabel e], acc.2) else acc
      if failsForbidden e then (acc1.1, acc1.2 ++ [rowLabel e]) else acc1)
    ([], [])

/-- The `last_contact_date` the save loop stores for an edit, given the
currently persisted value `cur`: date and time combined when the status
requires contact, `None` when it forbids it, `cur` for any other status.
The `cur` in the required branch is unreachable after a successful
validation (there the source would raise on a `None` date or time). -/
def newLastContact (e : EditRow) (cur : Cell) : Cell :=
  if requires_contact.contains (normStatus e) then
    match e.contact_date, e.contact_time with
    | some d, some t => Cell.str (formatDate d ++ " " ++ formatTime t)
    | _, _ => cur
  else if no_contact.contains (normStatus e) then
    Cell.none
  else
    cur

/-- The save loop's change test against the first currently stored row
`r` with the edit's lead id: status or notes differ after `str(x or '')`
(which renders a stored pandas `NaN` as `'nan'`), or the newly computed
`last_contact_date` differs from the stored one under Python's `!=`
(where `NaN` is unequal even to itself). -/
def rowChanged (e : EditRow) (r : StoredLead) : Bool :=
  (normStatus e != cellOrEmpty r.status) ||
    (orEmpty e.notes != cellOrEmpty r.notes) ||
    cellNe (newLastContact e r.last_contact_date) r.last_contact_date

/-- The assignment the save loop performs on every stored row matching the
edit's lead id; `cur` is the `last_contact_date` read from the first
matching row. -/
def updateStored (now : String) (e : EditRow) (cur : Cell)
    (r : StoredLead) : StoredLead :=
  { r with
    status := Cell.str (normStatus e)
    notes := noneIfEmpty e.notes
    last_contact_date := newLastContact e cur
    updated_at := Cell.str now }

/-- One iteration of the save loop on the store alone: skip when no stored
row has the edit's lead id, otherwise write all matching rows when the
change test on the first match fires. -/
def applyEditS (now : String) (S : List StoredLead) (e : EditRow) :
    List StoredLead :=
  match S.find? (fun r => r.lead_id == e.lead_id) with
  | none => S
  | some r0 =>
    if rowChanged e r0 then
      S.map (fun r =>
        if r.lead_id == e.lead_id then updateStored now e r0.last_contact_date r
        else r)
    else S

/-- One iteration of the save loop with the `changes` counter. -/
def applyEdit (now : String) (acc : List StoredLead × Nat) (e : EditRow) :
    List StoredLead × Nat :=
  match acc.1.find? (fun r => r.lead_id == e.lead_id) with
  | none => acc
  | some r0 =>
    if rowChanged e r0 then
      (acc.1.map (fun r =>
        if r.lead_id == e.lead_id then updateStored now e r0.last_contact_date r
        else r),
       acc.2 + 1)
    else acc

/-- The whole save handler on the leads store: validate the entire batch
first; on any violation report the two label lists and write nothing,
otherwise run the save loop over every edit. -/
def processBatch (B : List EditRow) (S : List StoredLead) (now : String) :
    Except (List String × List String) (List StoredLead × Nat) :=
  let v := validateBatch B
  if v.1.isEmpty && v.2.isEmpty then
    Except.ok (B.foldl (applyEdit now) (S, 0))
  else
    Except.error v

/-- The leads store as persisted after the save attempt: unchanged when
validation failed (the handler stops before any write), the save loop's
result otherwise. -/
def persistedAfter (B : List EditRow) (S : List StoredLead) (now : String) :
    List StoredLead :=
  match processBatch B S now with
  | Except.error _ => S
  | Except.ok (S', _) => S'

/-- The effect of a single edit on its own stored row (the closed form the
save loop realises when lead ids are unique): overwrite when the change
test fires, leave the row untouched otherwise. -/
def applyOne (now : String) (e : EditRow) (r : StoredLead) : StoredLead :=
  if rowChanged e r then updateStored now e r.last_contact_date r else r

/-! ## Sharded lead store

`load_all_leads` concatenates every parsable `.xlsx`/`.csv` file of the
leads folder (plus the legacy single file when the folder holds no such
file), back-fills missing schema columns with null, and projects onto the
fixed schema. `save_all_data` groups the leads table by `campaign_id`,
overwrites one shard file per group and removes stale `leads_*` files. -/

/-- The fixed Lead schema (`LEAD_SCHEMA_COLS` of the source). -/
def LEAD_SCHEMA_COLS : List String :=
  ["lead_id", "campaign_id", "customer_name", "phone", "email",
   "birth_date", "investment_level", "previous_product", "investment_budget",
   "preferred_contact", "policy_name", "maturity_date", "maturity_amount",
   "assigned_hub", "assigned_ic", "status", "priority", "last_contact_date",
   "next_contact_date", "notes", "created_at", "updated_at"]

/-- A row of a tabular file: the cells it actually carries, keyed by column
name (a column absent from the file is absent from the list). -/
structure RawRow where
  cells : List (String × Option String)
deriving DecidableEq

/-- Reading a column of a row: the stored cell, or null when the column is
absent (pandas back-fills absent schema columns with `None`). -/
def RawRow.get (r : RawRow) (c : String) : Option String :=
  (r.cells.lookup c).join

/-- `df_all[LEAD_SCHEMA_COLS]` applied to one row: its cells in schema
order, columns outside the schema dropped, absent columns null. -/
def projectSchema (r : RawRow) : List (Option String) :=
  LEAD_SCHEMA_COLS.map (fun c => r.get c)

/-- What a file of the leads folder holds: a parsed table, or `broken` for
a file whose `pd.read_excel`/`pd.read_csv` raises. -/
inductive FileContent where
  | table : List RawRow → FileContent
  | broken : FileContent
deriving DecidableEq

/-- The leads folder: its files in listing order. -/
structure Dir where
  files : List (String × FileContent)
deriving DecidableEq

/-- A merged DataFrame: column names and rows aligned with them. -/
structure DF where
  cols : List String
  rows : List (List (Option String))
deriving DecidableEq

/-- `fn.lower().endswith(('.xlsx', '.csv'))`. -/
def isDataFile (fn : String) : Bool :=
  endsWithL (lowerStr fn) ".xlsx" || endsWithL (lowerStr fn) ".csv"

/-- `has_child_files`: some file of the folder has a data extension. -/
def hasChildFiles (d : Dir) : Bool :=
  d.files.any (fun p => isDataFile p.1)

/-- The rows a file contributes, or `none` when its read raises (such a
file is skipped). -/
def parseFile : FileContent → Option (List RawRow)
  | FileContent.table rs => some rs
  | FileContent.broken => none

/-- The frame the legacy single file (`OLD_LEADS_FILE`) contributes: only
consulted when the folder has no data file, and skipped when absent or
unreadable. -/
def legacyFrames (d : Dir) (legacy : Option FileContent) :
    List (List RawRow) :=
  if hasChildFiles d then []
  else
    match legacy with
    | some (FileContent.table rs) => [rs]
    | _ => []

/-- The frames of the folder's data files, unparsable ones skipped. -/
def shardFrames (d : Dir) : List (List RawRow) :=
  d.files.filterMap (fun p => if isDataFile p.1 then parseFile p.2 else none)

/-- `load_all_leads`: legacy frame (when applicable) then the folder's
frames, concatenated and projected to `LEAD_SCHEMA_COLS`; the empty schema
table when no frame loads. -/
def load_all_leads (d : Dir) (legacy : Option FileContent) : DF :=
  let frames := legacyFrames d legacy ++ shardFrames d
  if frames.isEmpty then ⟨LEAD_SCHEMA_COLS, []⟩
  else ⟨LEAD_SCHEMA_COLS, frames.flatten.map projectSchema⟩

/-- The rows the legacy file would contribute on its own. -/
def legacyRows (legacy : Option FileContent) : List (List (Option String)) :=
  match legacy with
  | some (FileContent.table rs) => rs.map projectSchema
  | _ => []

/-- `f"leads_{campaign_id}.xlsx"`. -/
def shardFileName (c : String) : String :=
  String.mk ("leads_".toList ++ c.toList ++ ".xlsx".toList)

/-- `save_data` on a shard path: full overwrite of the named file,
creating it when absent. -/
def writeFile (d : Dir) (name : String) (rows : List RawRow) : Dir :=
  if d.files.any (fun p => p.1 = name) then
    ⟨d.files.map (fun p =>
      if p.1 = name then (name, FileContent.table rows) else p)⟩
  else ⟨d.files ++ [(name, FileContent.table rows)]⟩

/-- `os.path.splitext(fn)[0]` for the names this store handles: everything
before the last dot, the whole name when it has none. -/
def splitextStem (fn : String) : String :=
  let cs := fn.toList
  if cs.contains '.' then
    String.mk (((cs.reverse.dropWhile (fun ch => ch ≠ '.')).drop 1).reverse)
  else fn

/-- The campaign id `cleanup_stale_lead_files` derives from a file name:
`os.path.splitext(fn)[0].replace('leads_', '')` — note this deletes every
occurrence of `"leads_"` from the stem, not only a leading one. -/
def stripShard (fn : String) : String :=
  replaceL (splitextStem fn) "leads_" ""

/-- The files `cleanup_stale_lead_files` considers: name starts with
`leads_` and has a data extension. -/
def isShardName (fn : String) : Bool :=
  startsWithL fn "leads_" && isDataFile fn

/-- `cleanup_stale_lead_files`: remove every `leads_*` data file whose
derived campaign id is not among `valid`. -/
def cleanup_stale_lead_files (d : Dir) (valid : List String) : Dir :=
  ⟨d.files.filter (fun p =>
    !(isShardName p.1 && !(valid.contains (stripShard p.1))))⟩

/-- The `campaign_id` cell of a leads-table row. -/
def cid (r : RawRow) : Option String :=
  r.get "campaign_id"

/-- The distinct non-null campaign ids of a leads table: the group keys of
`leads_df.groupby('campaign_id')` and the `valid_ids` set (pandas sorts
the group keys; only the set of keys matters to the properties below, so a
deduplicated list stands for it). -/
def campaignKeys (T : List RawRow) : List String :=
  (T.filterMap cid).dedup

/-- The rows of one campaign's group (original row order, null
`campaign_id` rows in no group). -/
def groupRows (T : List RawRow) (c : String) : List RawRow :=
  T.filter (fun r => cid r = some c)

/-- The leads part of `save_all_data` on a nonempty table: write one shard
file per group, then garbage-collect stale `leads_*` files. -/
def save_leads (d : Dir) (T : List RawRow) : Dir :=
  let d1 := (campaignKeys T).foldl
    (fun dd c => writeFile dd (shardFileName c) (groupRows T c)) d
  cleanup_stale_lead_files d1 (campaignKeys T)

/-- `save_all_data` restricted to its effect on the leads folder: a null
or empty table only garbage-collects (with an empty valid set), a nonempty
one runs `save_leads`. -/
def save_all_data (d : Dir) (leads : Option (List RawRow)) : Dir :=
  match leads with
  | none => cleanup_stale_lead_files d []
  | some T => if T.isEmpty then cleanup_stale_lead_files d [] else save_leads d T

/-! ## Campaign id allocator (`generate_campaign_id`) -/

/-- Python `s.split('-')` on a character list. -/
def splitOnDash : List Char → List (List Char)
  | [] => [[]]
  | c :: rest =>
    let r := splitOnDash rest
    if c = '-' then [] :: r
    else
      match r with
      | h :: t => (c :: h) :: t
      | [] => [[c]]

/-- Python `int(s)` on the strings this allocator can meet (no `-` can
occur in a `split('-')` part): optional surrounding whitespace, an
optional `+`, then a nonempty digit run; anything else raises and the id
is ignored. (Python's underscore digit grouping is not modelled.) -/
def parsePyIntL (cs : List Char) : Option Nat :=
  let cs1 := (cs.dropWhile isSpaceChar).reverse.dropWhile isSpaceChar |>.reverse
  let cs2 := match cs1 with
    | '+' :: rest => rest
    | _ => cs1
  if cs2 ≠ [] ∧ cs2.all Char.isDigit then some (digitsToNat cs2) else none

/-- `generate_campaign_id` over the existing campaign ids: for each id
starting with `CAMP-`, try `int(cid.split('-')[1])`, ignore failures; then
`CAMP-` followed by max+1 (1 when nothing parsed) zero-padded to 3. -/
def generate_campaign_id (ids : List String) : String :=
  let numbers := ids.filterMap (fun c =>
    if startsWithL c "CAMP-" then
      match splitOnDash c.toList with
      | _ :: p1 :: _ => parsePyIntL p1
      | _ => none
    else none)
  let next := match numbers.max? with
    | some m => m + 1
    | none => 1
  "CAMP-" ++ padNum 3 next

/-- The text of an id between its first and second hyphen (empty when no
hyphen follows the first). -/
def dashSegment (c : String) : String :=
  String.mk (((c.toList.dropWhile (fun ch => ch ≠ '-')).drop 1).takeWhile
    (fun ch => ch ≠ '-'))

/-- The allocator as the amended claim words it: over ids starting with
`CAMP-`, Python-int-parse the text between the first and second hyphen,
ignore unparsable ones, and return max+1 zero-padded to at least 3 digits
(`CAMP-001` when nothing parses). -/
def amended_campaign_id (ids : List String) : String :=
  let numbers := ids.filterMap (fun c =>
    if startsWithL c "CAMP-" then parsePyIntL (dashSegment c).toList else none)
  match numbers.max? with
  | some m => "CAMP-" ++ padNum 3 (m + 1)
  | none => "CAMP-001"

/-- Modelled from the claim's words, for comparison with the source's
allocator: only ids fully matching `CAMP-<digits>` contribute their
numeric suffix. -/
def claim_campaign_id (ids : List String) : String :=
  let numbers := ids.filterMap (fun c =>
    let cs := c.toList
    if "CAMP-".toList.isPrefixOf cs then
      let suf := cs.drop 5
      if suf ≠ [] ∧ suf.all Char.isDigit then some (digitsToNat suf) else none
    else none)
  match numbers.max? with
  | some m => "CAMP-" ++ padNum 3 (m + 1)
  | none => "CAMP-001"

/-! ## Validator lemmas -/

theorem validateBatch_foldl (B : List EditRow) (a b : List String) :
    B.foldl
      (fun acc e =>
        let acc1 := if failsRequired e then (acc.1 ++ [rowLabel e], acc.2) else acc
        if failsForbidden e then (acc1.1, acc1.2 ++ [rowLabel e]) else acc1)
      (a, b) = (a ++ invalidRequired B, b ++ invalidForbidden B) := by
  induction B generalizing a b with
  | nil => simp [invalidRequired, invalidForbidden]
  | cons e B ih =>
    by_cases hr : failsRequired e <;> by_cases hf : failsForbidden e <;>
      simp [List.foldl_cons, hr, hf, ih, invalidRequired, invalidForbidden,
        List.filter_cons, List.append_assoc]

theorem validateBatch_eq (B : List EditRow) :
    validateBatch B = (invalidRequired B, invalidForbidden B) := by
  have h := validateBatch_foldl B [] []
  simpa [validateBatch] using h

theorem validate_ok_pass (B : List EditRow)
    (hok : validateBatch B = ([], [])) (e : EditRow) (heB : e ∈ B) :
    failsRequired e = false ∧ failsForbidden e = false := by
  have h := validateBatch_eq B
  rw [hok] at h
  have h1 : invalidRequired B = [] := congrArg Prod.fst h.symm
  have h2 : invalidForbidden B = [] := congrArg Prod.snd h.symm
  rw [invalidRequired, List.map_eq_nil_iff, List.filter_eq_nil_iff] at h1
  rw [invalidForbidden, List.map_eq_nil_iff, List.filter_eq_nil_iff] at h2
  exact ⟨Bool.eq_false_iff.mpr (h1 e heB), Bool.eq_false_iff.mpr (h2 e heB)⟩

/-- C1. For every edited row in a submitted batch, validation of the row
succeeds (it lands in neither `invalid_required` nor `invalid_forbidden`)
exactly when: if the proposed status is one of the five required-set
statuses (contacted, deal closed, pending decision, not interested,
unreachable — the Thai strings of the source), both the proposed contact
date and contact time are non-null; and if the proposed status is "not yet
contacted", both are null (either one present alone already fails). -/
theorem row_validation_iff (e : EditRow) :
    (failsRequired e = false ∧ failsForbidden e = false) ↔
    ((normStatus e ∈
        ["ติดต่อแล้ว", "ปิดการขายสำเร็จ", "รอตัดสินใจ", "ไม่สนใจ", "ติดต่อไม่ได้"] →
        e.contact_date ≠ none ∧ e.contact_time ≠ none) ∧
     (normStatus e = "ยังไม่ติดต่อ" →
        e.contact_date = none ∧ e.contact_time = none)) := by
  simp only [failsRequired, failsForbidden, requires_contact, no_contact,
    Bool.and_eq_false_iff, Bool.or_eq_false_iff, Bool.not_eq_eq_eq_not,
    Bool.not_false, Option.isNone_eq_false_iff,
    Option.isNone_iff_eq_none, List.elem_eq_mem, decide_eq_false_iff_not,
    decide_eq_true_eq, ne_eq, Option.isSome_iff_ne_none, List.mem_cons,
    List.mem_singleton, List.not_mem_nil, or_false]
  tauto

/-- C2. Batch commit is all-or-nothing: when some row of the batch fails
validation, the handler returns the two violation label lists (rows
violating the required rule and rows violating the forbidden rule,
separately) and the persisted store equals the store before the attempt. -/
theorem batch_commit_all_or_nothing (B : List EditRow) (S : List StoredLead)
    (now : String)
    (h : invalidRequired B ≠ [] ∨ invalidForbidden B ≠ []) :
    persistedAfter B S now = S ∧
    processBatch B S now =
      Except.error (invalidRequired B, invalidForbidden B) := by
  have hv := validateBatch_eq B
  have hpb : processBatch B S now =
      Except.error (invalidRequired B, invalidForbidden B) := by
    unfold processBatch
    rw [hv]
    rcases h with h | h <;>
      simp [List.isEmpty_iff, h]
  refine ⟨?_, hpb⟩
  unfold persistedAfter
  rw [hpb]

/-! ## Save-loop lemmas -/

theorem applyEdit_fst (now : String) (acc : List StoredLead × Nat)
    (e : EditRow) : (applyEdit now acc e).1 = applyEditS now acc.1 e := by
  unfold applyEdit applyEditS
  cases hf : acc.1.find? (fun r => r.lead_id == e.lead_id) with
  | none => rfl
  | some r0 => by_cases hc : rowChanged e r0 <;> simp [hc]

theorem foldl_applyEdit_fst (now : String) (B : List EditRow)
    (S : List StoredLead) (k : Nat) :
    (B.foldl (applyEdit now) (S, k)).1 = B.foldl (applyEditS now) S := by
  induction B generalizing S k with
  | nil => rfl
  | cons e B ih =>
    simp only [List.foldl_cons]
    have hpair : applyEdit now (S, k) e =
        (applyEditS now S e, (applyEdit now (S, k) e).2) :=
      Prod.ext (applyEdit_fst now (S, k) e) rfl
    rw [hpair]
    exact ih (applyEditS now S e) ((applyEdit now (S, k) e).2)

theorem applyEditS_none (now : String) (S : List StoredLead) (e : EditRow)
    (hf : S.find? (fun r => r.lead_id == e.lead_id) = none) :
    applyEditS now S e = S := by
  unfold applyEditS
  rw [hf]

theorem applyEditS_some (now : String) (S : List StoredLead) (e : EditRow)
    (r0 : StoredLead)
    (hf : S.find? (fun r => r.lead_id == e.lead_id) = some r0) :
    applyEditS now S e =
      if rowChanged e r0 then
        S.map (fun r =>
          if r.lead_id == e.lead_id then
            updateStored now e r0.last_contact_date r
          else r)
      else S := by
  unfold applyEditS
  rw [hf]

theorem persistedAfter_ok (B : List EditRow) (S : List StoredLead)
    (now : String) (hok : validateBatch B = ([], [])) :
    persistedAfter B S now = B.foldl (applyEditS now) S := by
  unfold persistedAfter processBatch
  rw [hok]
  simpa using foldl_applyEdit_fst now B S 0

theorem updateStored_id (now : String) (e : EditRow) (cur : Cell)
    (r : StoredLead) : (updateStored now e cur r).lead_id = r.lead_id := rfl

theorem applyEditS_ids (now : String) (S : List StoredLead) (e : EditRow) :
    (applyEditS now S e).map StoredLead.lead_id =
      S.map StoredLead.lead_id := by
  cases hf : S.find? (fun r => r.lead_id == e.lead_id) with
  | none => rw [applyEditS_none now S e hf]
  | some r0 =>
    rw [applyEditS_some now S e r0 hf]
    by_cases hc : rowChanged e r0
    · rw [if_pos hc, List.map_map]
      apply List.map_congr_left
      intro r _
      simp only [Function.comp_apply]
      split <;> rfl
    · rw [if_neg hc]

theorem foldl_applyEditS_ids (now : String) (B : List EditRow)
    (S : List StoredLead) :
    (B.foldl (applyEditS now) S).map StoredLead.lead_id =
      S.map StoredLead.lead_id := by
  induction B generalizing S with
  | nil => rfl
  | cons e B ih => rw [List.foldl_cons, ih, applyEditS_ids]

theorem find_of_nodup_ids (S : List StoredLead) (L : String)
    (hS : (S.map StoredLead.lead_id).Nodup) (r : StoredLead) (hr : r ∈ S)
    (hid : r.lead_id = L) :
    S.find? (fun x => x.lead_id == L) = some r := by
  induction S with
  | nil => cases hr
  | cons h t ih =>
    rw [List.map_cons, List.nodup_cons] at hS
    rcases List.mem_cons.mp hr with rfl | hrt
    · simp [List.find?_cons, hid]
    · have hne : (h.lead_id == L) = false := by
        apply beq_eq_false_iff_ne.mpr
        intro he
        exact hS.1 (he ▸ hid ▸ List.mem_map_of_mem StoredLead.lead_id hrt)
      rw [List.find?_cons, hne]
      exact ih hS.2 hrt

theorem stored_unique (S : List StoredLead)
    (hS : (S.map StoredLead.lead_id).Nodup) (x y : StoredLead) (hx : x ∈ S)
    (hy : y ∈ S) (h : x.lead_id = y.lead_id) : x = y :=
  List.inj_on_of_nodup_map hS hx hy h

theorem foldl_untouched (now : String) (B : List EditRow)
    (S : List StoredLead) (L : String) (hB : ∀ e ∈ B, e.lead_id ≠ L) :
    ∀ r ∈ B.foldl (applyEditS now) S, r.lead_id = L → r ∈ S := by
  induction B generalizing S with
  | nil => intro r hr _; exact hr
  | cons e B ih =>
    intro r hr hrL
    rw [List.foldl_cons] at hr
    have he : e.lead_id ≠ L := hB e (List.mem_cons_self e B)
    have hr1 : r ∈ applyEditS now S e :=
      ih (applyEditS now S e) (fun e' he' => hB e' (List.mem_cons_of_mem e he'))
        r hr hrL
    cases hf : S.find? (fun y => y.lead_id == e.lead_id) with
    | none => rw [applyEditS_none now S e hf] at hr1; exact hr1
    | some r0 =>
      rw [applyEditS_some now S e r0 hf] at hr1
      by_cases hc : rowChanged e r0
      · rw [if_pos hc] at hr1
        obtain ⟨y, hy, hxy⟩ := List.mem_map.mp hr1
        by_cases hyid : (y.lead_id == e.lead_id) = true
        · rw [if_pos hyid] at hxy
          have h1 : r.lead_id = y.lead_id := by rw [← hxy]; rfl
          have h2 : y.lead_id = e.lead_id := beq_iff_eq.mp hyid
          have h3 : e.lead_id = L := by rw [← h2, ← h1]; exact hrL
          exact absurd h3 he
        · rw [if_neg hyid] at hxy
          exact hxy ▸ hy
      · rw [if_neg hc] at hr1; exact hr1

theorem foldl_apply_unique (now : String) (B : List EditRow)
    (S : List StoredLead) (hB : (B.map EditRow.lead_id).Nodup)
    (hS : (S.map StoredLead.lead_id).Nodup) (e : EditRow) (heB : e ∈ B)
    (r : StoredLead) (hr : r ∈ S) (hid : r.lead_id = e.lead_id) :
    ∀ x ∈ B.foldl (applyEditS now) S, x.lead_id = e.lead_id →
      x = applyOne now e r := by
  induction B generalizing S with
  | nil => cases heB
  | cons e0 B ih =>
    rw [List.map_cons, List.nodup_cons] at hB
    intro x hx hxL
    rw [List.foldl_cons] at hx
    rcases List.mem_cons.mp heB with rfl | heB'
    · -- the head edit is e: its write happens first, later edits have
      -- different lead ids and leave the row alone
      have hS1 : x ∈ applyEditS now S e := by
        apply foldl_untouched now B (applyEditS now S e) e.lead_id ?_ x hx hxL
        intro e' he' heq
        exact hB.1 (heq ▸ List.mem_map_of_mem EditRow.lead_id he')
      have hfind : S.find? (fun y => y.lead_id == e.lead_id) = some r :=
        find_of_nodup_ids S e.lead_id hS r hr hid
      rw [applyEditS_some now S e r hfind] at hS1
      by_cases hc : rowChanged e r
      · rw [if_pos hc] at hS1
        obtain ⟨y, hy, hxy⟩ := List.mem_map.mp hS1
        by_cases hyid : (y.lead_id == e.lead_id) = true
        · rw [if_pos hyid] at hxy
          have hyr : y = r :=
            stored_unique S hS y r hy hr ((beq_iff_eq.mp hyid).trans hid.symm)
          subst hyr
          rw [← hxy]
          unfold applyOne
          rw [if_pos hc]
        · rw [if_neg hyid] at hxy
          subst hxy
          exact absurd (beq_iff_eq.mpr hxL) (by simpa using hyid)
      · rw [if_neg hc] at hS1
        have hxr : x = r := stored_unique S hS x r hS1 hr (hxL.trans hid.symm)
        unfold applyOne
        rw [if_neg hc]
        exact hxr
    · -- the head edit e0 is another row's: it leaves r in place and
      -- preserves ids, so the induction hypothesis applies
      have hne : e0.lead_id ≠ e.lead_id := by
        intro h
        exact hB.1 (h ▸ List.mem_map_of_mem EditRow.lead_id heB')
      have hS1ids : (applyEditS now S e0).map StoredLead.lead_id =
          S.map StoredLead.lead_id := applyEditS_ids now S e0
      have hS1 : ((applyEditS now S e0).map StoredLead.lead_id).Nodup := by
        rw [hS1ids]; exact hS
      have hr1 : r ∈ applyEditS now S e0 := by
        cases hf : S.find? (fun y => y.lead_id == e0.lead_id) with
        | none => rw [applyEditS_none now S e0 hf]; exact hr
        | some r0 =>
          rw [applyEditS_some now S e0 r0 hf]
          by_cases hc : rowChanged e0 r0
          · rw [if_pos hc]
            have hrid : (r.lead_id == e0.lead_id) = false :=
              beq_eq_false_iff_ne.mpr (by rw [hid]; exact fun h => hne h.symm)
            have := List.mem_map_of_mem
              (fun y => if y.lead_id == e0.lead_id then
                updateStored now e0 r0.last_contact_date y else y) hr
            simpa [hrid] using this
          · rw [if_neg hc]; exact hr
      exact ih (applyEditS now S e0) hB.2 hS1 heB' hr1 x hx hxL

theorem cellNe_eq_false {a b : Cell} (h : cellNe a b = false) : a = b := by
  cases a <;> cases b <;> simp_all [cellNe]

theorem isNone_false_some {α : Type} {o : Option α} (h : o.isNone = false) :
    ∃ v, o = some v := by
  cases o with
  | none => cases h
  | some v => exact ⟨v, rfl⟩

/-- C3. On successful validation, for every persisted row matching an edit
whose status is in the required set, the stored `last_contact_date` is the
validated date and time serialized as `YYYY-MM-DD HH:MM:SS` (date, one
space, time); for an edit whose status is "not yet contacted" it is null.
Stated over batches and stores with unique lead ids (the editor indexes by
lead id). -/
theorem saved_last_contact (B : List EditRow) (S : List StoredLead)
    (now : String) (e : EditRow) (hok : validateBatch B = ([], []))
    (heB : e ∈ B) (hB : (B.map EditRow.lead_id).Nodup)
    (hS : (S.map StoredLead.lead_id).Nodup) :
    ∀ x ∈ persistedAfter B S now, x.lead_id = e.lead_id →
      ((normStatus e ∈ requires_contact →
          ∃ dv tv, e.contact_date = some dv ∧ e.contact_time = some tv ∧
            x.last_contact_date =
              Cell.str (formatDate dv ++ " " ++ formatTime tv)) ∧
       (normStatus e ∈ no_contact → x.last_contact_date = Cell.none)) := by
  intro x hx hxL
  rw [persistedAfter_ok B S now hok] at hx
  have hxid : x.lead_id ∈ S.map StoredLead.lead_id := by
    rw [← foldl_applyEditS_ids now B S]
    exact List.mem_map_of_mem StoredLead.lead_id hx
  obtain ⟨r, hr, hrid⟩ := List.mem_map.mp hxid
  have hx1 : x = applyOne now e r :=
    foldl_apply_unique now B S hB hS e heB r hr (hrid.trans hxL) x hx hxL
  have hpass := validate_ok_pass B hok e heB
  constructor
  · intro hreq
    have hcontains : requires_contact.contains (normStatus e) = true :=
      List.elem_eq_true_of_mem hreq
    have h1 := hpass.1
    rw [failsRequired, hcontains, Bool.true_and, Bool.or_eq_false_iff] at h1
    obtain ⟨dv, hdv⟩ := isNone_false_some h1.1
    obtain ⟨tv, htv⟩ := isNone_false_some h1.2
    refine ⟨dv, tv, hdv, htv, ?_⟩
    have hlcs : newLastContact e r.last_contact_date =
        Cell.str (formatDate dv ++ " " ++ formatTime tv) := by
      unfold newLastContact
      rw [if_pos hcontains, hdv, htv]
    rw [hx1]
    unfold applyOne
    by_cases hc : rowChanged e r
    · rw [if_pos hc]
      exact hlcs
    · rw [if_neg hc]
      have hc0 : rowChanged e r = false := Bool.eq_false_iff.mpr hc
      rw [rowChanged, Bool.or_eq_false_iff, Bool.or_eq_false_iff] at hc0
      have hnc : newLastContact e r.last_contact_date =
          r.last_contact_date := cellNe_eq_false hc0.2
      rw [← hnc]
      exact hlcs
  · intro hforb
    have hst : normStatus e = "ยังไม่ติดต่อ" := by
      simpa [no_contact] using hforb
    have hc1 : no_contact.contains (normStatus e) = true :=
      List.elem_eq_true_of_mem hforb
    have hlcs : newLastContact e r.last_contact_date = Cell.none := by
      unfold newLastContact
      rw [if_neg (by rw [hst]; decide), if_pos hc1]
    rw [hx1]
    unfold applyOne
    by_cases hc : rowChanged e r
    · rw [if_pos hc]
      exact hlcs
    · rw [if_neg hc]
      have hc0b : rowChanged e r = false := Bool.eq_false_iff.mpr hc
      rw [rowChanged, Bool.or_eq_false_iff, Bool.or_eq_false_iff] at hc0b
      have hnc : newLastContact e r.last_contact_date =
          r.last_contact_date := cellNe_eq_false hc0b.2
      rw [← hnc]
      exact hlcs

/-- C4 (amended). On a successful batch save, a stored row matching an
edit gets `updated_at := now` — together with the new status, notes and
computed `last_contact_date` — exactly when the code's change test fires:
status or notes differ after the `str(x or '')` rendering, which maps
`None` and `''` to `''` but renders a stored pandas `NaN` as the string
`'nan'`, or the newly computed `last_contact_date` differs from the
stored one under Python's `!=`, where `NaN` is unequal to everything
including itself. A row on which the test does not fire is kept
bit-for-bit: status, notes, `last_contact_date` and `updated_at` all stay
as previously persisted. (Because of the `NaN` legs, a no-op edit of a
row whose stored notes or `last_contact_date` is `NaN` does fire the
test and does bump `updated_at` — see the counterexample.) -/
theorem updated_at_iff_changed (B : List EditRow) (S : List StoredLead)
    (now : String) (e : EditRow) (r : StoredLead)
    (hok : validateBatch B = ([], [])) (heB : e ∈ B)
    (hB : (B.map EditRow.lead_id).Nodup)
    (hS : (S.map StoredLead.lead_id).Nodup) (hr : r ∈ S)
    (hid : r.lead_id = e.lead_id) :
    ∀ x ∈ persistedAfter B S now, x.lead_id = e.lead_id →
      ((rowChanged e r = true →
          x.updated_at = Cell.str now ∧ x.status = Cell.str (normStatus e) ∧
          x.notes = noneIfEmpty e.notes ∧
          x.last_contact_date = newLastContact e r.last_contact_date) ∧
       (rowChanged e r = false → x = r)) := by
  intro x hx hxL
  rw [persistedAfter_ok B S now hok] at hx
  have hx1 : x = applyOne now e r :=
    foldl_apply_unique now B S hB hS e heB r hr hid x hx hxL
  constructor
  · intro hc
    rw [hx1]
    unfold applyOne
    rw [if_pos hc]
    exact ⟨rfl, rfl, rfl, rfl⟩
  · intro hc
    rw [hx1]
    unfold applyOne
    rw [if_neg (by simp [hc])]

/-! ## Shard-store lemmas -/

theorem dropWhile_stop (p : Char → Bool) (pre : List Char) (x : Char)
    (rest : List Char) (hpre : ∀ ch ∈ pre, p ch = true) (hx : p x = false) :
    List.dropWhile p (pre ++ x :: rest) = x :: rest := by
  induction pre with
  | nil => simp [List.dropWhile_cons, hx]
  | cons a pre ih =>
    rw [List.cons_append, List.dropWhile_cons,
      hpre a (List.mem_cons_self a pre)]
    exact ih (fun ch hch => hpre ch (List.mem_cons_of_mem a hch))

theorem shardFileName_toList (c : String) :
    (shardFileName c).toList = "leads_".toList ++ c.toList ++ ".xlsx".toList :=
  rfl

theorem isDataFile_shard (c : String) : isDataFile (shardFileName c) = true := by
  unfold isDataFile
  apply Bool.or_eq_true_iff.mpr
  left
  unfold endsWithL lowerStr
  rw [shardFileName_toList]
  have hmk : (String.mk (("leads_".toList ++ c.toList ++ ".xlsx".toList).map
      Char.toLower)).toList =
      ("leads_".toList ++ c.toList ++ ".xlsx".toList).map Char.toLower := rfl
  rw [hmk, List.map_append, List.map_append]
  have hext : ".xlsx".toList.map Char.toLower = ".xlsx".toList := rfl
  rw [hext]
  have hsuf : ".xlsx".toList <:+
      ("leads_".toList.map Char.toLower ++ c.toList.map Char.toLower) ++
        ".xlsx".toList := List.suffix_append _ _
  simp only [List.isSuffixOf_iff_suffix]
  exact hsuf

theorem isShardName_shard (c : String) :
    isShardName (shardFileName c) = true := by
  unfold isShardName
  apply Bool.and_eq_true_iff.mpr
  refine ⟨?_, isDataFile_shard c⟩
  unfold startsWithL
  rw [shardFileName_toList, List.append_assoc]
  have hpre : "leads_".toList <+:
      "leads_".toList ++ (c.toList ++ ".xlsx".toList) := List.prefix_append _ _
  simp only [List.isPrefixOf_iff_prefix]
  exact hpre

theorem stem_shard (c : String) :
    splitextStem (shardFileName c) = String.mk ("leads_".toList ++ c.toList) := by
  unfold splitextStem
  rw [shardFileName_toList]
  rw [show ".xlsx".toList = ['.', 'x', 'l', 's', 'x'] from by decide]
  have hdot : ("leads_".toList ++ c.toList ++
      ['.', 'x', 'l', 's', 'x']).contains '.' = true := by
    have hmem : '.' ∈ "leads_".toList ++ c.toList ++ ['.', 'x', 'l', 's', 'x'] :=
      List.mem_append_right _ (by decide)
    simp only [List.elem_eq_mem, decide_eq_true_eq]
    exact hmem
  rw [if_pos hdot]
  rw [List.reverse_append]
  rw [show (['.', 'x', 'l', 's', 'x'] : List Char).reverse =
      ['x', 's', 'l', 'x', '.'] from by decide]
  rw [show (['x', 's', 'l', 'x', '.'] : List Char) ++
      ("leads_".toList ++ c.toList).reverse =
      ['x', 's', 'l', 'x'] ++ ('.' :: ("leads_".toList ++ c.toList).reverse)
      from rfl]
  rw [dropWhile_stop (fun ch => ch ≠ '.') ['x', 's', 'l', 'x'] '.'
    (("leads_".toList ++ c.toList).reverse) (by decide) (by decide)]
  rw [show ('.' :: ("leads_".toList ++ c.toList).reverse).drop 1 =
      ("leads_".toList ++ c.toList).reverse from rfl]
  rw [List.reverse_reverse]

theorem shardFileName_inj (a b : String)
    (h : shardFileName a = shardFileName b) : a = b := by
  have h1 := congrArg String.toList h
  rw [shardFileName_toList, shardFileName_toList] at h1
  have h2 : "leads_".toList ++ a.toList = "leads_".toList ++ b.toList :=
    List.append_cancel_right h1
  exact String.ext (List.append_cancel_left h2)

theorem writeFile_at (d : Dir) (n : String) (rows : List RawRow) :
    ∀ p ∈ (writeFile d n rows).files, p.1 = n →
      p.2 = FileContent.table rows := by
  intro p hp hpn
  unfold writeFile at hp
  by_cases h : d.files.any (fun q => q.1 = n)
  · rw [if_pos h] at hp
    obtain ⟨q, hq, hqp⟩ := List.mem_map.mp hp
    by_cases hqn : q.1 = n
    · rw [if_pos hqn] at hqp
      rw [← hqp]
    · rw [if_neg hqn] at hqp
      subst hqp
      exact absurd hpn hqn
  · rw [if_neg h] at hp
    rcases List.mem_append.mp hp with h1 | h1
    · exact absurd (List.any_eq_true.mpr ⟨p, h1, by simpa using hpn⟩) h
    · have h2 := List.mem_singleton.mp h1
      rw [h2]

theorem writeFile_exists_entry (d : Dir) (n : String) (rows : List RawRow) :
    ∃ p ∈ (writeFile d n rows).files, p.1 = n := by
  unfold writeFile
  by_cases h : d.files.any (fun q => q.1 = n)
  · rw [if_pos h]
    obtain ⟨q, hq, hqn⟩ := List.any_eq_true.mp h
    refine ⟨(n, FileContent.table rows), List.mem_map.mpr ⟨q, hq, ?_⟩, rfl⟩
    exact if_pos (show q.1 = n from by simpa using hqn)
  · rw [if_neg h]
    exact ⟨(n, FileContent.table rows),
      List.mem_append_right _ (List.mem_singleton.mpr rfl), rfl⟩

theorem writeFile_preserve (d : Dir) (n : String) (rows : List RawRow)
    (p : String × FileContent) (hne : p.1 ≠ n) :
    p ∈ (writeFile d n rows).files ↔ p ∈ d.files := by
  unfold writeFile
  by_cases h : d.files.any (fun q => q.1 = n)
  · rw [if_pos h]
    constructor
    · intro hp
      obtain ⟨q, hq, hqp⟩ := List.mem_map.mp hp
      by_cases hqn : q.1 = n
      · rw [if_pos hqn] at hqp
        subst hqp
        exact absurd rfl hne
      · rw [if_neg hqn] at hqp
        exact hqp ▸ hq
    · intro hp
      exact List.mem_map.mpr ⟨p, hp, if_neg hne⟩
  · rw [if_neg h]
    constructor
    · intro hp
      rcases List.mem_append.mp hp with h1 | h1
      · exact h1
      · have h2 := List.mem_singleton.mp h1
        subst h2
        exact absurd rfl hne
    · exact fun hp => List.mem_append_left _ hp

theorem writeFile_fresh (d : Dir) (n : String) (rows : List RawRow)
    (h : d.files.any (fun q => q.1 = n) = false) :
    writeFile d n rows = ⟨d.files ++ [(n, FileContent.table rows)]⟩ := by
  unfold writeFile
  rw [if_neg (by simp [h])]

theorem foldl_write_preserve (T : List RawRow) (ks : List String) (d : Dir)
    (p : String × FileContent) (hne : ∀ c ∈ ks, p.1 ≠ shardFileName c) :
    (p ∈ (ks.foldl
        (fun dd k => writeFile dd (shardFileName k) (groupRows T k)) d).files)
      ↔ p ∈ d.files := by
  induction ks generalizing d with
  | nil => exact Iff.rfl
  | cons k ks ih =>
    rw [List.foldl_cons]
    rw [ih _ (fun c hc => hne c (List.mem_cons_of_mem k hc))]
    exact writeFile_preserve d _ _ p (hne k (List.mem_cons_self k ks))

theorem foldl_write_lookup (T : List RawRow) (ks : List String) (d : Dir)
    (hnd : ks.Nodup) :
    ∀ c ∈ ks, ∀ p ∈ (ks.foldl
        (fun dd k => writeFile dd (shardFileName k) (groupRows T k)) d).files,
      p.1 = shardFileName c → p.2 = FileContent.table (groupRows T c) := by
  induction ks generalizing d with
  | nil => intro c hc; cases hc
  | cons k ks ih =>
    rw [List.nodup_cons] at hnd
    intro c hc p hp hpn
    rw [List.foldl_cons] at hp
    rcases List.mem_cons.mp hc with rfl | hc'
    · have hpres : p ∈ (writeFile d (shardFileName c) (groupRows T c)).files := by
        rw [← foldl_write_preserve T ks _ p ?_]
        · exact hp
        · intro c' hc' heq
          apply hnd.1
          rw [shardFileName_inj c c' (hpn ▸ heq)]
          exact hc'
      exact writeFile_at d _ _ p hpres hpn
    · exact ih _ hnd.2 c hc' p hp hpn

theorem foldl_write_exists (T : List RawRow) (ks : List String) (d : Dir)
    (hnd : ks.Nodup) :
    ∀ c ∈ ks, ∃ p ∈ (ks.foldl
        (fun dd k => writeFile dd (shardFileName k) (groupRows T k)) d).files,
      p.1 = shardFileName c := by
  induction ks generalizing d with
  | nil => intro c hc; cases hc
  | cons k ks ih =>
    rw [List.nodup_cons] at hnd
    intro c hc
    rw [List.foldl_cons]
    rcases List.mem_cons.mp hc with rfl | hc'
    · obtain ⟨p, hp, hpn⟩ :=
        writeFile_exists_entry d (shardFileName c) (groupRows T c)
      refine ⟨p, ?_, hpn⟩
      rw [foldl_write_preserve T ks _ p ?_]
      · exact hp
      · intro c' hc' heq
        apply hnd.1
        rw [shardFileName_inj c c' (hpn ▸ heq)]
        exact hc'
    · exact ih _ hnd.2 c hc'

theorem foldl_write_fresh (T : List RawRow) (ks : List String) (d : Dir)
    (hnd : ks.Nodup)
    (hfresh : ∀ c ∈ ks, ∀ p ∈ d.files, p.1 ≠ shardFileName c) :
    (ks.foldl (fun dd k => writeFile dd (shardFileName k) (groupRows T k))
        d).files =
      d.files ++
        ks.map (fun c => (shardFileName c, FileContent.table (groupRows T c)))
        := by
  induction ks generalizing d with
  | nil => simp
  | cons k ks ih =>
    rw [List.nodup_cons] at hnd
    rw [List.foldl_cons]
    have hany : d.files.any (fun q => q.1 = shardFileName k) = false := by
      rw [Bool.eq_false_iff]
      intro hany
      obtain ⟨q, hq, hqn⟩ := List.any_eq_true.mp hany
      exact hfresh k (List.mem_cons_self k ks) q hq (by simpa using hqn)
    have hwf := writeFile_fresh d (shardFileName k) (groupRows T k) hany
    rw [hwf]
    rw [ih ⟨d.files ++ [(shardFileName k, FileContent.table (groupRows T k))]⟩
      hnd.2 ?_]
    · rw [List.append_assoc, List.singleton_append, List.map_cons]
    · intro c hc p hp
      rcases List.mem_append.mp hp with h1 | h1
      · exact hfresh c (List.mem_cons_of_mem k hc) p h1
      · have h2 := List.mem_singleton.mp h1
        subst h2
        intro heq
        apply hnd.1
        rw [shardFileName_inj k c heq]
        exact hc

theorem mem_cleanup (d : Dir) (valid : List String) (p : String × FileContent) :
    p ∈ (cleanup_stale_lead_files d valid).files ↔
      p ∈ d.files ∧
        (!(isShardName p.1 && !(valid.contains (stripShard p.1)))) = true :=
  List.mem_filter

theorem campaignKeys_nodup (T : List RawRow) : (campaignKeys T).Nodup :=
  List.nodup_dedup _

theorem mem_campaignKeys (T : List RawRow) (c : String) :
    c ∈ campaignKeys T ↔ ∃ r ∈ T, cid r = some c := by
  unfold campaignKeys
  rw [List.mem_dedup, List.mem_filterMap]

theorem save_some_eq (d : Dir) (T : List RawRow) (hne : T ≠ []) :
    save_all_data d (some T) =
      cleanup_stale_lead_files
        ((campaignKeys T).foldl
          (fun dd c => writeFile dd (shardFileName c) (groupRows T c)) d)
        (campaignKeys T) := by
  unfold save_all_data
  show (if T.isEmpty = true then cleanup_stale_lead_files d []
      else save_leads d T) = _
  rw [if_neg (by simp [List.isEmpty_iff, hne])]
  rfl

theorem cleanup_empty_valid (d : Dir) :
    cleanup_stale_lead_files d [] =
      ⟨d.files.filter (fun p => !isShardName p.1)⟩ := by
  unfold cleanup_stale_lead_files
  congr 1
  apply List.filter_congr
  intro p _
  simp [List.contains]

/-- C5 (amended). For a nonempty leads table whose campaign ids survive the
cleanup's name extraction (the stem of `leads_<cid>.xlsx` with every
occurrence of `"leads_"` deleted gives back `cid` — in particular ids that
do not contain `"leads_"`): after `save_all_data`, (a) each distinct
non-null campaign id has its shard file, fully overwritten with exactly
that group's rows; (b) rows with a null campaign id are in no written
group; (c) every pre-existing `leads_*` data file whose extracted campaign
id is not among the written ids is gone. A null or empty table deletes
every `leads_*` data file and keeps everything else. -/
theorem save_all_postcondition (d : Dir) (T : List RawRow) (hne : T ≠ [])
    (hms : ∀ c ∈ campaignKeys T, stripShard (shardFileName c) = c) :
    (∀ c ∈ campaignKeys T,
        (∃ p ∈ (save_all_data d (some T)).files,
            p.1 = shardFileName c ∧
            p.2 = FileContent.table (groupRows T c)) ∧
        (∀ p ∈ (save_all_data d (some T)).files, p.1 = shardFileName c →
            p.2 = FileContent.table (groupRows T c))) ∧
    (∀ c ∈ campaignKeys T, ∀ r ∈ groupRows T c, cid r ≠ none) ∧
    (∀ p ∈ d.files, isShardName p.1 = true →
        stripShard p.1 ∉ campaignKeys T →
        ∀ q ∈ (save_all_data d (some T)).files, q.1 ≠ p.1) ∧
    save_all_data d none = ⟨d.files.filter (fun p => !isShardName p.1)⟩ ∧
    save_all_data d (some []) =
      ⟨d.files.filter (fun p => !isShardName p.1)⟩ := by
  have hsave := save_some_eq d T hne
  have hkeep : ∀ c ∈ campaignKeys T,
      (!(isShardName (shardFileName c) &&
        !((campaignKeys T).contains (stripShard (shardFileName c))))) = true := by
    intro c hc
    rw [hms c hc, isShardName_shard]
    simpa [List.contains] using hc
  refine ⟨?_, ?_, ?_, ?_, ?_⟩
  · intro c hc
    constructor
    · obtain ⟨p, hp, hpn⟩ :=
        foldl_write_exists T (campaignKeys T) d (campaignKeys_nodup T) c hc
      have hcontent := foldl_write_lookup T (campaignKeys T) d
        (campaignKeys_nodup T) c hc p hp hpn
      refine ⟨p, ?_, hpn, hcontent⟩
      rw [hsave]
      apply (mem_cleanup _ _ p).mpr
      refine ⟨hp, ?_⟩
      rw [hpn]
      exact hkeep c hc
    · intro p hp hpn
      rw [hsave] at hp
      have hp1 := ((mem_cleanup _ _ p).mp hp).1
      exact foldl_write_lookup T (campaignKeys T) d (campaignKeys_nodup T)
        c hc p hp1 hpn
  · intro c hc r hr
    have := (List.mem_filter.mp hr).2
    simp only [decide_eq_true_eq] at this
    rw [this]
    exact Option.some_ne_none c
  · intro p hp hshard hstrip q hq heq
    rw [hsave] at hq
    have hkeepq := ((mem_cleanup _ _ q).mp hq).2
    rw [heq, hshard] at hkeepq
    have hcont : (campaignKeys T).contains (stripShard p.1) = false := by
      rw [Bool.eq_false_iff]
      intro hcont
      exact hstrip (by simpa [List.contains] using hcont)
    rw [hcont] at hkeepq
    simp at hkeepq
  · exact cleanup_empty_valid d
  · show cleanup_stale_lead_files d [] = _
    exact cleanup_empty_valid d

theorem load_all_leads_eq (d : Dir) (legacy : Option FileContent) :
    load_all_leads d legacy =
      if (legacyFrames d legacy ++ shardFrames d).isEmpty then
        (⟨LEAD_SCHEMA_COLS, []⟩ : DF)
      else
        ⟨LEAD_SCHEMA_COLS,
          ((legacyFrames d legacy ++ shardFrames d).flatten).map projectSchema⟩
      := rfl

theorem save_files_from_empty (T : List RawRow)
    (hms : ∀ c ∈ campaignKeys T, stripShard (shardFileName c) = c) :
    save_all_data ⟨[]⟩ (some T) =
      ⟨(campaignKeys T).map
        (fun c => (shardFileName c, FileContent.table (groupRows T c)))⟩ := by
  by_cases hT : T = []
  · subst hT
    rfl
  · rw [save_some_eq ⟨[]⟩ T hT]
    have hfold := foldl_write_fresh T (campaignKeys T) ⟨[]⟩
      (campaignKeys_nodup T) (by intro c hc p hp; cases hp)
    unfold cleanup_stale_lead_files
    congr 1
    rw [hfold, List.nil_append]
    apply List.filter_eq_self.mpr
    intro p hp
    obtain ⟨c, hc, hcp⟩ := List.mem_map.mp hp
    subst hcp
    simp only []
    rw [hms c hc, isShardName_shard]
    simpa [List.contains] using hc

theorem load_of_shards (T : List RawRow) (ks : List String) (hks : ks ≠ [])
    (legacy : Option FileContent) :
    load_all_leads
      ⟨ks.map (fun c => (shardFileName c, FileContent.table (groupRows T c)))⟩
      legacy =
      ⟨LEAD_SCHEMA_COLS,
        ((ks.map (fun c => groupRows T c)).flatten).map projectSchema⟩ := by
  obtain ⟨k, ks', rfl⟩ := List.exists_cons_of_ne_nil hks
  have hchild : hasChildFiles
      ⟨(k :: ks').map
        (fun c => (shardFileName c, FileContent.table (groupRows T c)))⟩
      = true := by
    unfold hasChildFiles
    apply List.any_eq_true.mpr
    refine ⟨(shardFileName k, FileContent.table (groupRows T k)), ?_, ?_⟩
    · exact List.mem_map.mpr ⟨k, List.mem_cons_self k ks', rfl⟩
    · simpa using isDataFile_shard k
  have hshard : shardFrames
      ⟨(k :: ks').map
        (fun c => (shardFileName c, FileContent.table (groupRows T c)))⟩ =
      (k :: ks').map (fun c => groupRows T c) := by
    unfold shardFrames
    rw [List.filterMap_map]
    have hfun : ∀ c ∈ (k :: ks'),
        ((fun p => if isDataFile p.1 then parseFile p.2 else none) ∘
          (fun c => (shardFileName c, FileContent.table (groupRows T c)))) c =
          some (groupRows T c) := by
      intro c _
      simp only [Function.comp_apply]
      rw [if_pos (isDataFile_shard c)]
      rfl
    calc List.filterMap _ (k :: ks')
        = List.filterMap (fun c => some (groupRows T c)) (k :: ks') :=
          List.filterMap_congr hfun
      _ = (k :: ks').map (fun c => groupRows T c) := by
          rw [show (fun c => some (groupRows T c)) =
              (some ∘ fun c => groupRows T c) from rfl,
            List.filterMap_eq_map]
  have hlf : legacyFrames
      ⟨(k :: ks').map
        (fun c => (shardFileName c, FileContent.table (groupRows T c)))⟩
      legacy = [] := by
    unfold legacyFrames
    rw [if_pos hchild]
  rw [load_all_leads_eq, hlf, hshard, List.nil_append]
  rw [if_neg (by simp)]

theorem flatten_group_perm (T : List RawRow) (ks : List String)
    (hnd : ks.Nodup) (hcov : ∀ r ∈ T, ∃ c ∈ ks, cid r = some c) :
    List.Perm (ks.map (fun c => groupRows T c)).flatten T := by
  induction ks generalizing T with
  | nil =>
    have hT : T = [] := by
      cases T with
      | nil => rfl
      | cons r T' =>
        obtain ⟨c, hc, _⟩ := hcov r (List.mem_cons_self r T')
        cases hc
    subst hT
    simp
  | cons k ks ih =>
    rw [List.nodup_cons] at hnd
    rw [List.map_cons, List.flatten_cons]
    have hsplit : List.Perm
        (groupRows T k ++ T.filter (fun r => !(decide (cid r = some k)))) T :=
      List.filter_append_perm _ T
    have hgroups : (ks.map (fun c => groupRows T c)) =
        ks.map (fun c =>
          groupRows (T.filter (fun r => !(decide (cid r = some k)))) c) := by
      apply List.map_congr_left
      intro c hc
      unfold groupRows
      rw [List.filter_filter]
      apply List.filter_congr
      intro r _
      by_cases h : cid r = some c
      · have hck : c ≠ k := fun h2 => hnd.1 (h2 ▸ hc)
        have hk : ¬(cid r = some k) := by
          rw [h]
          intro h3
          exact hck (Option.some.inj h3)
        simp [h, hk, hck]
      · simp [h]
    rw [hgroups]
    have hcov' : ∀ r ∈ T.filter (fun r => !(decide (cid r = some k))),
        ∃ c ∈ ks, cid r = some c := by
      intro r hr
      have hrT := List.mem_filter.mp hr
      obtain ⟨c, hc, hcid2⟩ := hcov r hrT.1
      rcases List.mem_cons.mp hc with rfl | hc'
      · exfalso
        have h2 := hrT.2
        simp [hcid2] at h2
      · exact ⟨c, hc', hcid2⟩
    exact List.Perm.trans
      ((ih _ hnd.2 hcov').append_left (groupRows T k)) hsplit

/-- C6 (amended). For a leads table all of whose rows carry a non-null
campaign id, with ids that survive the cleanup's name extraction, starting
from an empty shard directory with no legacy file: `load_all_leads` after
`save_all_data` returns exactly the table's rows (projected onto the 22
schema columns) up to row order, and the directory holds exactly one shard
file per distinct campaign id. -/
theorem shard_round_trip (T : List RawRow)
    (hcid : ∀ r ∈ T, cid r ≠ none)
    (hms : ∀ c ∈ campaignKeys T, stripShard (shardFileName c) = c) :
    (((load_all_leads (save_all_data ⟨[]⟩ (some T)) none).rows :
        List (List (Option String))) : Multiset (List (Option String))) =
      ((T.map projectSchema : List (List (Option String))) :
        Multiset (List (Option String))) ∧
    (save_all_data ⟨[]⟩ (some T)).files =
      (campaignKeys T).map
        (fun c => (shardFileName c, FileContent.table (groupRows T c))) := by
  have hdir := save_files_from_empty T hms
  refine ⟨?_, by rw [hdir]⟩
  by_cases hT : T = []
  · subst hT
    rw [hdir]
    rfl
  · have hks : campaignKeys T ≠ [] := by
      obtain ⟨r, T', rfl⟩ := List.exists_cons_of_ne_nil hT
      obtain ⟨c, hc⟩ := Option.ne_none_iff_exists'.mp
        (hcid r (List.mem_cons_self r T'))
      exact List.ne_nil_of_mem
        ((mem_campaignKeys _ c).mpr ⟨r, List.mem_cons_self r T', hc⟩)
    rw [hdir, load_of_shards T (campaignKeys T) hks none]
    apply Multiset.coe_eq_coe.mpr
    apply List.Perm.map projectSchema
    apply flatten_group_perm T (campaignKeys T) (campaignKeys_nodup T)
    intro r hr
    obtain ⟨c, hc⟩ := Option.ne_none_iff_exists'.mp (hcid r hr)
    exact ⟨c, (mem_campaignKeys T c).mpr ⟨r, hr, hc⟩, hc⟩

/-- C7 (amended). `load_all_leads` consults the legacy single-file table
exactly when the leads folder currently holds no data (`.xlsx`/`.csv`)
file: with at least one such file the legacy file is ignored and the load
equals the load with no legacy file at all; with none, the result is the
legacy rows (none when it is absent or unreadable). The decision depends
only on the folder's current state, so deleting every shard file makes
the legacy file consulted again. -/
theorem legacy_consultation (d : Dir) (legacy : Option FileContent) :
    load_all_leads d legacy =
      if hasChildFiles d then load_all_leads d none
      else ⟨LEAD_SCHEMA_COLS,
        legacyRows legacy ++ (load_all_leads d none).rows⟩ := by
  by_cases h : hasChildFiles d
  · rw [if_pos h, load_all_leads_eq, load_all_leads_eq]
    have h1 : legacyFrames d legacy = [] := by
      unfold legacyFrames
      rw [if_pos h]
    have h2 : legacyFrames d none = [] := by
      unfold legacyFrames
      rw [if_pos h]
    rw [h1, h2]
  · rw [if_neg h]
    have hb : hasChildFiles d = false := Bool.eq_false_iff.mpr h
    have hsf : shardFrames d = [] := by
      unfold shardFrames
      apply List.filterMap_eq_nil_iff.mpr
      intro p hp
      have hdf : isDataFile p.1 = false := by
        rw [Bool.eq_false_iff]
        intro hdf
        apply h
        unfold hasChildFiles
        exact List.any_eq_true.mpr ⟨p, hp, hdf⟩
      rw [if_neg (by simp [hdf])]
    have h2 : legacyFrames d none = [] := by
      unfold legacyFrames
      rw [if_neg (by simp [hb])]
    have h1 : legacyFrames d legacy = (match legacy with
        | some (FileContent.table rs) => [rs]
        | _ => []) := by
      unfold legacyFrames
      rw [if_neg (by simp [hb])]
    rw [load_all_leads_eq, load_all_leads_eq, hsf, h1, h2]
    cases legacy with
    | none => simp [legacyRows]
    | some fc =>
      cases fc with
      | table rs => simp [legacyRows]
      | broken => simp [legacyRows]

/-- C9. The load never fails: replacing or inserting an unreadable file
changes nothing as long as the folder's has-data-files test is unchanged
(the broken shard is skipped, the remaining shards still load and
concatenate), and when every file of the folder is unreadable and the
legacy file is absent or unreadable, the result is the empty schema table
rather than an error. -/
theorem load_error_tolerance :
    (∀ pre post : List (String × FileContent), ∀ n : String,
        ∀ legacy : Option FileContent,
        hasChildFiles ⟨pre ++ post⟩ =
          hasChildFiles ⟨pre ++ (n, FileContent.broken) :: post⟩ →
        load_all_leads ⟨pre ++ (n, FileContent.broken) :: post⟩ legacy =
          load_all_leads ⟨pre ++ post⟩ legacy) ∧
    (∀ d : Dir, ∀ legacy : Option FileContent,
        (∀ p ∈ d.files, parseFile p.2 = none) →
        legacy = none ∨ legacy = some FileContent.broken →
        load_all_leads d legacy = ⟨LEAD_SCHEMA_COLS, []⟩) := by
  constructor
  · intro pre post n legacy hsame
    have hsf : shardFrames ⟨pre ++ (n, FileContent.broken) :: post⟩ =
        shardFrames ⟨pre ++ post⟩ := by
      unfold shardFrames
      simp only [List.filterMap_append, List.filterMap_cons]
      cases hd : isDataFile n <;> simp [hd, parseFile]
    have hlf : legacyFrames ⟨pre ++ (n, FileContent.broken) :: post⟩ legacy =
        legacyFrames ⟨pre ++ post⟩ legacy := by
      unfold legacyFrames
      rw [hsame]
    rw [load_all_leads_eq, load_all_leads_eq, hsf, hlf]
  · intro d legacy hall hleg
    have hsf : shardFrames d = [] := by
      unfold shardFrames
      apply List.filterMap_eq_nil_iff.mpr
      intro p hp
      by_cases hd : isDataFile p.1
      · rw [if_pos hd]
        exact hall p hp
      · rw [if_neg hd]
    have hlf : legacyFrames d legacy = [] := by
      unfold legacyFrames
      rcases hleg with rfl | rfl
      · split <;> rfl
      · split <;> rfl
    rw [load_all_leads_eq, hsf, hlf]
    rfl

/-- C10. The schema invariant of `load_all_leads`: for every state of the
folder and legacy file, the returned table carries exactly the 22 fixed
schema columns in their fixed order; every returned row is the schema
projection of some raw source row and has 22 entries; a column absent
from a source row reads as null; and columns outside the schema do not
influence the projection (they are dropped). -/
theorem load_schema_invariant :
    LEAD_SCHEMA_COLS.length = 22 ∧
    (∀ d : Dir, ∀ legacy : Option FileContent,
        (load_all_leads d legacy).cols = LEAD_SCHEMA_COLS) ∧
    (∀ d : Dir, ∀ legacy : Option FileContent,
        ∀ row ∈ (load_all_leads d legacy).rows,
          (∃ raw : RawRow, row = projectSchema raw) ∧ row.length = 22) ∧
    (∀ raw : RawRow, ∀ c : String, raw.cells.lookup c = none →
        RawRow.get raw c = none) ∧
    (∀ r1 r2 : RawRow,
        (∀ c ∈ LEAD_SCHEMA_COLS, RawRow.get r1 c = RawRow.get r2 c) →
        projectSchema r1 = projectSchema r2) := by
  refine ⟨rfl, ?_, ?_, ?_, ?_⟩
  · intro d legacy
    rw [load_all_leads_eq]
    split <;> rfl
  · intro d legacy row hrow
    rw [load_all_leads_eq] at hrow
    split at hrow
    · cases hrow
    · obtain ⟨raw, _, hraw⟩ := List.mem_map.mp hrow
      refine ⟨⟨raw, hraw.symm⟩, ?_⟩
      rw [← hraw]
      simp only [projectSchema, List.length_map]
      rfl
  · intro raw c h
    unfold RawRow.get
    rw [h]
    rfl
  · intro r1 r2 h
    unfold projectSchema
    exact List.map_congr_left h

/-! ## Allocator lemmas -/

theorem splitOnDash_head (l : List Char) :
    ∃ t, splitOnDash l = l.takeWhile (fun ch => ch ≠ '-') :: t := by
  induction l with
  | nil => exact ⟨[], rfl⟩
  | cons c rest ih =>
    unfold splitOnDash
    by_cases h : c = '-'
    · subst h
      refine ⟨splitOnDash rest, ?_⟩
      rw [if_pos rfl]
      simp [List.takeWhile_cons]
    · obtain ⟨t, ht⟩ := ih
      rw [if_neg h, ht]
      refine ⟨t, ?_⟩
      simp [List.takeWhile_cons, h]

theorem splitOnDash_pre (pre rest : List Char) (h : ∀ ch ∈ pre, ch ≠ '-') :
    splitOnDash (pre ++ '-' :: rest) = pre :: splitOnDash rest := by
  induction pre with
  | nil =>
    rw [List.nil_append]
    conv_lhs => unfold splitOnDash
    rw [if_pos rfl]
  | cons c pre ih =>
    rw [List.cons_append]
    conv_lhs => unfold splitOnDash
    rw [if_neg (h c (List.mem_cons_self c pre)),
      ih (fun ch hch => h ch (List.mem_cons_of_mem c hch))]

/-- The numbers the source allocator collects. -/
def genNumbers (ids : List String) : List Nat :=
  ids.filterMap (fun c =>
    if startsWithL c "CAMP-" then
      match splitOnDash c.toList with
      | _ :: p1 :: _ => parsePyIntL p1
      | _ => none
    else none)

/-- The numbers the amended description collects. -/
def amendNumbers (ids : List String) : List Nat :=
  ids.filterMap (fun c =>
    if startsWithL c "CAMP-" then parsePyIntL (dashSegment c).toList
    else none)

theorem generate_eq_genNumbers (ids : List String) :
    generate_campaign_id ids =
      "CAMP-" ++ padNum 3 (match (genNumbers ids).max? with
        | some m => m + 1
        | none => 1) := rfl

theorem amended_eq_amendNumbers (ids : List String) :
    amended_campaign_id ids =
      match (amendNumbers ids).max? with
      | some m => "CAMP-" ++ padNum 3 (m + 1)
      | none => "CAMP-001" := rfl

theorem pad_next (N : List Nat) :
    ("CAMP-" ++ padNum 3 (match N.max? with | some m => m + 1 | none => 1)) =
      (match N.max? with
        | some m => "CAMP-" ++ padNum 3 (m + 1)
        | none => "CAMP-001") := by
  cases N.max? with
  | some m => rfl
  | none => decide

theorem genNumbers_eq_amendNumbers (ids : List String) :
    genNumbers ids = amendNumbers ids := by
  apply List.filterMap_congr
  intro c _
  by_cases h : startsWithL c "CAMP-" = true
  · rw [if_pos h, if_pos h]
    have h2 : "CAMP-".toList <+: c.toList := by
      simpa [startsWithL, List.isPrefixOf_iff_prefix] using h
    obtain ⟨s, hs⟩ := h2
    rw [show "CAMP-".toList = ['C', 'A', 'M', 'P', '-'] from by decide] at hs
    have hs2 : c.toList = ['C', 'A', 'M', 'P'] ++ '-' :: s := by
      rw [← hs]
      rfl
    rw [hs2, splitOnDash_pre ['C', 'A', 'M', 'P'] s (by decide)]
    obtain ⟨t, ht⟩ := splitOnDash_head s
    rw [ht]
    have hseg : (dashSegment c).toList =
        s.takeWhile (fun ch => ch ≠ '-') := by
      unfold dashSegment
      rw [hs2, dropWhile_stop (fun ch => ch ≠ '-') ['C', 'A', 'M', 'P'] '-' s
        (by decide) (by decide)]
      rfl
    rw [hseg]
  · rw [if_neg h, if_neg h]

/-- C8 (amended). The source allocator coincides, on every id list, with:
over ids starting with `CAMP-`, parse (Python `int` semantics: optional
surrounding whitespace and an optional `+` sign around a digit run) the
text between the first and second hyphen, ignore ids whose segment does
not parse, and return `CAMP-` followed by max+1 zero-padded to at least 3
digits; `CAMP-001` when nothing parses (in particular when no campaign
exists). With no campaigns it yields `CAMP-001`, and on the spec's P6
instance it yields `CAMP-004`. -/
theorem allocator_amended_equivalence :
    (∀ ids : List String,
        generate_campaign_id ids = amended_campaign_id ids) ∧
    generate_campaign_id [] = "CAMP-001" ∧
    generate_campaign_id ["CAMP-001", "CAMP-003", "CAMP-XYZ"] = "CAMP-004"
    := by
  refine ⟨?_, by decide, by decide⟩
  intro ids
  rw [generate_eq_genNumbers, amended_eq_amendNumbers,
    genNumbers_eq_amendNumbers]
  exact pad_next (amendNumbers ids)

/-- C8 counterexample. On the id `CAMP-12-34`, which does not match the
`CAMP-<digits>` pattern and so should be ignored per the claim (yielding
`CAMP-001`), the source allocator parses `int("CAMP-12-34".split('-')[1])
= 12` and returns `CAMP-013`. -/
theorem allocator_counterexample :
    generate_campaign_id ["CAMP-12-34"] = "CAMP-013" ∧
    claim_campaign_id ["CAMP-12-34"] = "CAMP-001" ∧
    ("CAMP-013" : String) ≠ "CAMP-001" := by
  decide

/-! ## Concrete inputs for the witnesses and counterexamples -/

/-- A lead row of campaign `A`. -/
def rowA : RawRow := ⟨[("campaign_id", some "A")]⟩

/-- A lead row without a campaign id (an orphan). -/
def orphanRow : RawRow := ⟨[("customer_name", some "X")]⟩

/-- A legacy-file row. -/
def legacyRowC : RawRow :=
  ⟨[("campaign_id", some "A"), ("customer_name", some "Legacy")]⟩

/-- A leads folder holding one stale shard file and one unrelated file. -/
def dW : Dir :=
  ⟨[("leads_OLD.xlsx", FileContent.table []), ("keep.txt", FileContent.broken)]⟩

/-- An edit moving a lead to contacted with a full timestamp. -/
def eW : EditRow :=
  ⟨"L1", "ABCD1234", "Alice", some "ติดต่อแล้ว", some ⟨2024, 3, 1⟩,
    some ⟨10, 0, 0⟩, some "hi"⟩

/-- The stored lead the edit `eW` targets. -/
def rW : StoredLead :=
  ⟨"L1", Cell.str "ยังไม่ติดต่อ", Cell.none, Cell.none, Cell.none⟩

/-- The stored lead after committing `eW` at time `NOW`. -/
def xW : StoredLead :=
  ⟨"L1", Cell.str "ติดต่อแล้ว", Cell.str "hi",
    Cell.str "2024-03-01 10:00:00", Cell.str "NOW"⟩

/-- A stored lead whose notes cell is a pandas `NaN` (an empty cell of the
reloaded shard). -/
def rN : StoredLead :=
  ⟨"L1", Cell.str "ติดต่อแล้ว", Cell.nan, Cell.str "2024-03-01 10:00:00",
    Cell.str "OLD"⟩

/-- The edit the display pipeline produces for `rN` when the user touches
nothing: the stored status, the date and time parsed back from the stored
`last_contact_date`, and notes shown as `''` (the `fillna('')` rendering
of the missing cell). -/
def eN : EditRow :=
  ⟨"L1", "ABCD1234", "Alice", some "ติดต่อแล้ว", some ⟨2024, 3, 1⟩,
    some ⟨10, 0, 0⟩, some ""⟩

/-- An invalid edit: status "not yet contacted" with a contact date. -/
def eBad : EditRow :=
  ⟨"L2", "C2", "Bob", some "ยังไม่ติดต่อ", some ⟨2024, 3, 1⟩, none, none⟩

/-- C6 counterexample. The claim "for any Leads table T, saveAll then
loadAll reproduces T's rows up to order" fails at a one-row table whose
row has no campaign id: the orphan row is dropped and the reload is
empty. -/
theorem round_trip_counterexample :
    ¬ ((((load_all_leads (save_all_data ⟨[]⟩ (some [orphanRow])) none).rows :
        List (List (Option String))) : Multiset (List (Option String))) =
      (([orphanRow].map projectSchema : List (List (Option String))) :
        Multiset (List (Option String)))) := by
  decide

/-- C7 counterexample. After one save creates a shard file, a later save
of an empty table deletes every shard file, and `load_all_leads` then
returns the legacy file's rows again — refuting "once any shard file has
ever existed, the legacy file is never consulted again". -/
theorem legacy_reconsulted_counterexample :
    hasChildFiles (save_all_data ⟨[]⟩ (some [rowA])) = true ∧
    save_all_data (save_all_data ⟨[]⟩ (some [rowA])) (some []) = ⟨[]⟩ ∧
    (load_all_leads (save_all_data (save_all_data ⟨[]⟩ (some [rowA]))
        (some [])) (some (FileContent.table [legacyRowC]))).rows =
      [projectSchema legacyRowC] := by
  decide

/-- C5 counterexample. A pre-existing shard file `leads_leads_A.xlsx` —
the shard of campaign id `leads_A` under the naming scheme
`leads_<cid>.xlsx` — survives a save whose only written id is `A`,
because the cleanup extracts its campaign id by deleting every
occurrence of `leads_` from the stem, obtaining `A`, which is valid. -/
theorem stale_shard_counterexample :
    (save_all_data ⟨[("leads_leads_A.xlsx", FileContent.table [])]⟩
        (some [rowA])).files.map Prod.fst =
      ["leads_leads_A.xlsx", "leads_A.xlsx"] ∧
    shardFileName "leads_A" = "leads_leads_A.xlsx" ∧
    ("leads_A" : String) ∉ campaignKeys [rowA] := by
  decide

/-- C4 counterexample. A no-op edit of a lead whose stored notes cell is
a pandas `NaN`: the proposed status equals the stored one, the computed
`last_contact_date` equals the stored one, and the notes field holds the
`''` under which the missing cell was displayed — nothing changed. Yet
`str(nan or '')` is `'nan'`, so the change test compares `'' != 'nan'`
and fires: the save rewrites the row and stamps `updated_at` with the
current time, replacing the previously persisted `OLD`. -/
theorem updated_at_noop_counterexample :
    normStatus eN = cellOrEmpty rN.status ∧
    newLastContact eN rN.last_contact_date = rN.last_contact_date ∧
    eN.notes = some "" ∧ rN.notes = Cell.nan ∧
    rN.updated_at = Cell.str "OLD" ∧
    persistedAfter [eN] [rN] "NOW" =
      [⟨"L1", Cell.str "ติดต่อแล้ว", Cell.none,
        Cell.str "2024-03-01 10:00:00", Cell.str "NOW"⟩] := by
  decide

/-! ## Witnesses: the claim theorems applied at concrete inputs -/

theorem batch_commit_witness :
    persistedAfter [eBad] [rW] "NOW" = [rW] ∧
    processBatch [eBad] [rW] "NOW" =
      Except.error (invalidRequired [eBad], invalidForbidden [eBad]) :=
  batch_commit_all_or_nothing [eBad] [rW] "NOW" (Or.inr (by decide))

theorem saved_last_contact_witness :
    (normStatus eW ∈ requires_contact →
        ∃ dv tv, eW.contact_date = some dv ∧ eW.contact_time = some tv ∧
          xW.last_contact_date =
            Cell.str (formatDate dv ++ " " ++ formatTime tv)) ∧
    (normStatus eW ∈ no_contact → xW.last_contact_date = Cell.none) :=
  saved_last_contact [eW] [rW] "NOW" eW (by decide) (by decide) (by decide)
    (by decide) xW (by decide) (by decide)

theorem updated_at_iff_changed_witness :
    (rowChanged eW rW = true →
        xW.updated_at = Cell.str "NOW" ∧
        xW.status = Cell.str (normStatus eW) ∧
        xW.notes = noneIfEmpty eW.notes ∧
        xW.last_contact_date = newLastContact eW rW.last_contact_date) ∧
    (rowChanged eW rW = false → xW = rW) :=
  updated_at_iff_changed [eW] [rW] "NOW" eW rW (by decide) (by decide)
    (by decide) (by decide) (by decide) (by decide) xW (by decide) (by decide)

theorem save_all_postcondition_witness :
    (∀ c ∈ campaignKeys [rowA],
        (∃ p ∈ (save_all_data dW (some [rowA])).files,
            p.1 = shardFileName c ∧
            p.2 = FileContent.table (groupRows [rowA] c)) ∧
        (∀ p ∈ (save_all_data dW (some [rowA])).files, p.1 = shardFileName c →
            p.2 = FileContent.table (groupRows [rowA] c))) ∧
    (∀ c ∈ campaignKeys [rowA], ∀ r ∈ groupRows [rowA] c, cid r ≠ none) ∧
    (∀ p ∈ dW.files, isShardName p.1 = true →
        stripShard p.1 ∉ campaignKeys [rowA] →
        ∀ q ∈ (save_all_data dW (some [rowA])).files, q.1 ≠ p.1) ∧
    save_all_data dW none = ⟨dW.files.filter (fun p => !isShardName p.1)⟩ ∧
    save_all_data dW (some []) =
      ⟨dW.files.filter (fun p => !isShardName p.1)⟩ :=
  save_all_postcondition dW [rowA] (by decide) (by decide)

theorem shard_round_trip_witness :
    (((load_all_leads (save_all_data ⟨[]⟩ (some [rowA])) none).rows :
        List (List (Option String))) : Multiset (List (Option String))) =
      (([rowA].map projectSchema : List (List (Option String))) :
        Multiset (List (Option String))) ∧
    (save_all_data ⟨[]⟩ (some [rowA])).files =
      (campaignKeys [rowA]).map
        (fun c => (shardFileName c, FileContent.table (groupRows [rowA] c))) :=
  shard_round_trip [rowA] (by decide) (by decide)

end LeadConnect
